import Mathlib

set_option linter.unusedVariables false

/-!
Verification of the cutting-stock optimization engine in `stock.py`.

The Python program is shallowly embedded: pure computations become Lean
functions over `ℚ` (Python floats carry exact small rationals in every code
path the claims exercise), Python run-time errors (ValueError on `max`/`min`
of an empty sequence, ZeroDivisionError, IndexError) are modelled by
`Option`, and the three calls into the external LP/MILP solver
(`solve_master_problem` duals, the knapsack integer program inside
`solve_knapsack`, and the final integer master) are modelled by a
`SolverOracle` whose outputs the theorems quantify over.
-/

/-- Tolerance constant `1e-6` used throughout stock.py. -/
def eps : ℚ := 1 / 1000000

/-- A purchasable board type (stock.py lines 12-18): `length` in inches, `price`. -/
structure StockOption where
  length : ℚ
  price : ℚ
deriving DecidableEq, Repr

/-- A demand item (stock.py lines 22-28): `length` in inches, integer `quantity`. -/
structure RequiredCut where
  length : ℚ
  quantity : ℤ
deriving DecidableEq, Repr

instance : Inhabited RequiredCut := ⟨⟨0, 0⟩⟩

/-- A parts-table row as consumed by the engine (columns LEN, QTY, label). -/
structure PartsRow where
  LEN : ℚ
  QTY : ℤ
  LABEL : String
deriving DecidableEq, Repr

/-- A prices-table row (columns length in feet, price). -/
structure PriceRow where
  length : ℚ
  price : ℚ
deriving DecidableEq, Repr

/-- stock.py lines 11-18: stock rows are taken verbatim, feet converted to inches. -/
def loadStockOptions (rows : List PriceRow) : List StockOption :=
  rows.map fun r => { length := r.length * 12, price := r.price }

/-- stock.py lines 21-28: parts rows are taken verbatim; the code performs no
filtering and no validation of quantities or lengths. -/
def loadRequiredCuts (rows : List PartsRow) : List RequiredCut :=
  rows.map fun r => { length := r.LEN, quantity := r.QTY }

/-- The dictionary returned by calculate_theoretical_minimums
(stock.py lines 83-93). `min_boards_by_length` entries are
(length, boards, cost); `price_efficiency` is (price-per-inch, length, price). -/
structure TheoreticalMinimums where
  total_length_needed : ℚ
  min_theoretical_cost : ℚ
  min_boards_by_length : List (ℚ × ℚ × ℚ)
  min_theoretical_waste : ℚ
  price_efficiency : ℚ × ℚ × ℚ
deriving DecidableEq, Repr

/-- Python `min(l, key=lambda x: x[0])` on a list of triples: the first element
attaining the minimal first component; ValueError on `[]` becomes `none`. -/
def minByFirst : List (ℚ × ℚ × ℚ) → Option (ℚ × ℚ × ℚ)
  | [] => none
  | x :: xs => some (xs.foldl (fun b y => if y.1 < b.1 then y else b) x)

/-- Python dict assignment `d[k] = v` on an insertion-ordered dict whose values
are pairs, as in min_boards_by_length (stock.py lines 53-59). -/
def dictInsert (d : List (ℚ × ℚ × ℚ)) (k : ℚ) (v : ℚ × ℚ) : List (ℚ × ℚ × ℚ) :=
  if d.any fun p => p.1 = k then d.map fun p => if p.1 = k then (k, v.1, v.2) else p
  else d ++ [(k, v.1, v.2)]

/-- The first-fit-decreasing waste loop of stock.py lines 73-78: each round pops
the head cut; when the current remnant cannot hold it, the remnant is added to
the waste and a fresh board of `maxLen` is opened before the cut is removed.
Returns (final remnant, accumulated waste). -/
def ffdLoop (maxLen : ℚ) : List ℚ → ℚ → ℚ → ℚ × ℚ
  | [], board, waste => (board, waste)
  | c :: rest, board, waste =>
    if board < c then ffdLoop maxLen rest (maxLen - c) (waste + board)
    else ffdLoop maxLen rest (board - c) waste

/-- Python `list.sort(reverse=True)`: stable sort into descending order
(insertion sort keeps equal elements in their original relative order, as
Python's stable sort does). -/
def sortDesc (l : List ℚ) : List ℚ := l.insertionSort fun a b => b ≤ a

/-- stock.py lines 46-47: `total_length_needed`. -/
def totalLengthNeeded (cuts : List RequiredCut) : ℚ :=
  (cuts.map fun c => c.length * (c.quantity : ℚ)).sum

/-- stock.py lines 63-66: expand the cuts into a flat multiset of lengths and
sort descending. -/
def allCutsSorted (cuts : List RequiredCut) : List ℚ :=
  sortDesc ((cuts.map fun c => List.replicate c.quantity.toNat c.length).flatten)

/-- stock.py lines 44-93, calculate_theoretical_minimums.  `none` models the
ValueError raised by `min`/`max` over an empty stock list. -/
def calculateTheoreticalMinimums (stocks : List StockOption)
    (cuts : List RequiredCut) : Option TheoreticalMinimums :=
  let tln := totalLengthNeeded cuts
  let ppi := stocks.map fun s => (s.price / s.length, s.length, s.price)
  match minByFirst ppi with
  | none => none
  | some me =>
    let mbl := stocks.foldl
      (fun d s => dictInsert d s.length (tln / s.length, tln / s.length * s.price)) []
    let mtc := tln * me.1
    match (stocks.map fun s => s.length).max? with
    | none => none
    | some maxLen =>
      let fw := ffdLoop maxLen (allCutsSorted cuts) maxLen 0
      let mtw := if 0 < fw.1 then fw.2 + fw.1 else fw.2
      some { total_length_needed := tln, min_theoretical_cost := mtc,
             min_boards_by_length := mbl, min_theoretical_waste := mtw,
             price_efficiency := me }

/-- A cutting pattern: one count per required cut, in cut-index order. -/
abbrev Pattern := List ℕ

/-- stock.py lines 103-104: the vector `[0]*len(cuts)` with position `i` set to
`count`. -/
def unitPattern (n i count : ℕ) : Pattern :=
  (List.range n).map fun j => if j = i then count else 0

/-- Body of the inner seeding loop (stock.py lines 100-106) for one
(stock, indexed cut) pair: the lists appended to `self.patterns` and
`self.pattern_costs`.  `num_pieces = int(stock.length // cut.length)`. -/
def seedOne (stock : StockOption) (n : ℕ) (ic : ℕ × RequiredCut) :
    List Pattern × List ℚ :=
  let num : ℤ := ⌊stock.length / ic.2.length⌋
  if 0 < num then ([unitPattern n ic.1 num.toNat], [stock.price]) else ([], [])

/-- Append componentwise on (patterns, costs) states. -/
def pairApp (a b : List Pattern × List ℚ) : List Pattern × List ℚ :=
  (a.1 ++ b.1, a.2 ++ b.2)

/-- stock.py lines 95-106, generate_initial_patterns: the nested loops appending
to `self.patterns` / `self.pattern_costs` (both empty at the start of
optimize). -/
def generateInitialPatterns (stocks : List StockOption) (cuts : List RequiredCut) :
    List Pattern × List ℚ :=
  stocks.foldl (fun st stock =>
    cuts.enum.foldl (fun st2 ic => pairApp st2 (seedOne stock cuts.length ic)) st)
    ([], [])

/-- Specification-shaped seeding, following the words of spec section 4.2: one
(pattern, price) per (stock, cut) pair with a positive floor, in order.  Used
only to compare against the code-shaped `generateInitialPatterns`. -/
def seededPatternsSpec (stocks : List StockOption) (cuts : List RequiredCut) :
    List (Pattern × ℚ) :=
  stocks.flatMap fun s =>
    cuts.enum.filterMap fun ic =>
      let n : ℤ := ⌊s.length / ic.2.length⌋
      if 0 < n then some (unitPattern cuts.length ic.1 n.toNat, s.price) else none

/-- The pulp LpStatus values the program can report. -/
inductive SolStatus
  | notSolved | optimal | infeasible | unbounded | undefined
deriving DecidableEq, Repr

/-- The three external LP/MILP solver interactions, abstracted: `duals` is the
dual vector returned by solve_master_problem on the current (patterns, costs)
state, `knapSol` the integer solution of the knapsack subproblem for a stock
and a dual vector, `ip` the primal values and status of the final integer
master on the final (patterns, costs) state. -/
structure SolverOracle where
  duals : List Pattern × List ℚ → List ℚ
  knapSol : StockOption → List ℚ → Pattern
  ip : List Pattern → List ℚ → List ℚ × SolStatus

/-- stock.py lines 130-143, solve_knapsack: the integer program is delegated to
the solver (here the oracle solution `sol`); the pattern and its reduced cost
`cost - Σ dual_i·sol_i` are computed from it. -/
def solveKnapsack (sol : Pattern) (duals : List ℚ) (cost : ℚ) : Pattern × ℚ :=
  (sol, cost - ((duals.zip sol).map fun p => p.1 * (p.2 : ℚ)).sum)

/-- stock.py lines 145-162, solve_subproblem: scan the stocks keeping the
strictly smallest reduced cost (ties keep the earlier stock); `none` plays the
role of the initial infinite reduced cost, so an empty stock list returns
`none`. -/
def solveSubproblem (O : SolverOracle) (stocks : List StockOption)
    (duals : List ℚ) : Option (Pattern × ℚ × ℚ) :=
  stocks.foldl (fun best stock =>
    let pr := solveKnapsack (O.knapSol stock duals) duals stock.price
    match best with
    | none => some (pr.1, pr.2, stock.price)
    | some b => if pr.2 < b.2.1 then some (pr.1, pr.2, stock.price) else best)
    none

/-- One body of the column-generation while-loop (stock.py lines 171-180):
`none` when the loop breaks, i.e. when the best reduced cost satisfies
`reduced_cost >= -1e-6` (which is also how Python behaves on an empty stock
list, where the reduced cost stays infinite), otherwise the state with the new
pattern and its stock price appended. -/
def cgStep (O : SolverOracle) (stocks : List StockOption)
    (st : List Pattern × List ℚ) : Option (List Pattern × List ℚ) :=
  match solveSubproblem O stocks (O.duals st) with
  | none => none
  | some (pat, rc, sc) =>
    if -eps ≤ rc then none else some (st.1 ++ [pat], st.2 ++ [sc])

/-- The column-generation loop of stock.py lines 168-180, with `fuel` the
remaining iteration budget (`max_iterations - iteration`, initially 100).
Returns the final (patterns, costs) state and the number of patterns appended,
which is exactly the final value of the Python variable `iteration`. -/
def cgLoop (O : SolverOracle) (stocks : List StockOption) :
    ℕ → List Pattern × List ℚ → (List Pattern × List ℚ) × ℕ
  | 0, st => (st, 0)
  | fuel + 1, st =>
    match cgStep O stocks st with
    | none => (st, 0)
    | some st2 =>
      let r := cgLoop O stocks fuel st2
      (r.1, r.2 + 1)

/-- Iterated `cgStep`: the state after n successful loop bodies. -/
def stepN (O : SolverOracle) (stocks : List StockOption) :
    ℕ → List Pattern × List ℚ → Option (List Pattern × List ℚ)
  | 0, st => some st
  | n + 1, st => (cgStep O stocks st).bind (stepN O stocks n)

/-- Dot product of two coefficient lists, zipping to the shorter length, as the
lpSum expressions in stock.py pair coefficients with variables by index. -/
def dotQ (a b : List ℚ) : ℚ := ((a.zip b).map fun p => p.1 * p.2).sum

/-- The demand constraints of the final integer master (stock.py lines
189-191): one per required cut, in cut-index order; each is the coefficient row
`patterns[j][i]` over the patterns together with the right-hand side
`required_cuts[i].quantity`. -/
def masterDemandConstraints (patterns : List Pattern) (cuts : List RequiredCut) :
    List (List ℚ × ℚ) :=
  (List.range cuts.length).map fun i =>
    (((List.range patterns.length).map fun j =>
        (((patterns.getD j []).getD i 0 : ℕ) : ℚ)),
     (((cuts.getD i default).quantity : ℤ) : ℚ))

/-- Lengths of the stock options whose price is within 1e-6 of `cost`
(the generator inside `max(...)` at stock.py lines 221-223 and 246-248). -/
def matchingLengths (stocks : List StockOption) (cost : ℚ) : List ℚ :=
  (stocks.filter fun s => |s.price - cost| < eps).map fun s => s.length

/-- stock.py lines 221-223 / 246-248: `max` over the matching stock lengths;
the ValueError on an empty match set becomes `none`. -/
def stockLengthFor (stocks : List StockOption) (cost : ℚ) : Option ℚ :=
  (matchingLengths stocks cost).max?

/-- stock.py lines 219-220: the used length of a pattern,
`Σ_{j < len(cuts)} pattern[j] · cuts[j].length` (patterns always have exactly
one entry per cut in the program, so total indexing is faithful). -/
def usedLength (cuts : List RequiredCut) (pat : Pattern) : ℚ :=
  ((List.range cuts.length).map fun j =>
    ((pat.getD j 0 : ℕ) : ℚ) * (cuts.getD j default).length).sum

/-- stock.py lines 213-225, calculate_waste: fold over enumerate(pattern_usage)
accumulating `(stock_length - used_length) * usage` for usages above 1e-6;
out-of-range indexing and the empty `max` are modelled by `none`. -/
def calculateWaste (stocks : List StockOption) (cuts : List RequiredCut)
    (patterns : List Pattern) (costs : List ℚ) (usage : List ℚ) : Option ℚ :=
  usage.enum.foldlM (fun acc iu =>
    if eps < iu.2 then
      match patterns.get? iu.1, costs.get? iu.1 with
      | some pat, some cost =>
        match stockLengthFor stocks cost with
        | some sl => some (acc + (sl - usedLength cuts pat) * iu.2)
        | none => none
      | _, _ => none
    else some acc) 0

/-- One cut-detail record of format_solution (stock.py lines 240-244). -/
structure CutDetail where
  length : ℚ
  count : ℕ
  description : String
deriving DecidableEq, Repr

/-- One cutting-pattern record of format_solution (stock.py lines 250-256). -/
structure PlanEntry where
  stock_length : ℚ
  stock_length_feet : ℚ
  cuts : List ℚ
  cut_details : List CutDetail
  times_used : ℤ
deriving DecidableEq, Repr

/-- Python `int(round(x))` on a rational: round half to even (stock.py
line 255). -/
def pyRound (q : ℚ) : ℤ :=
  let f := ⌊q⌋
  let r := q - (f : ℚ)
  if r < 1 / 2 then f
  else if 1 / 2 < r then f + 1
  else if f % 2 = 0 then f else f + 1

/-- stock.py lines 233-244: the flat cut list and the cut-detail records of one
pattern; descriptions come from the parts table, indexing failures are `none`. -/
def buildCutDetails (cuts : List RequiredCut) (descs : List String)
    (pat : Pattern) : Option (List ℚ × List CutDetail) :=
  pat.enum.foldlM (fun acc jc =>
    if 0 < jc.2 then
      match cuts.get? jc.1, descs.get? jc.1 with
      | some c, some d =>
        some (acc.1 ++ List.replicate jc.2 c.length,
              acc.2 ++ [{ length := c.length, count := jc.2, description := d }])
      | _, _ => none
    else some acc) ([], [])

/-- stock.py lines 227-257, format_solution. -/
def formatSolution (stocks : List StockOption) (cuts : List RequiredCut)
    (descs : List String) (patterns : List Pattern) (costs : List ℚ)
    (usage : List ℚ) : Option (List PlanEntry) :=
  usage.enum.foldlM (fun acc iu =>
    if eps < iu.2 then
      match patterns.get? iu.1, costs.get? iu.1 with
      | some pat, some cost =>
        match buildCutDetails cuts descs pat, stockLengthFor stocks cost with
        | some cd, some sl =>
          some (acc ++ [{ stock_length := sl, stock_length_feet := sl / 12,
                          cuts := cd.1, cut_details := cd.2,
                          times_used := pyRound iu.2 }])
        | _, _ => none
      | _, _ => none
    else some acc) []

/-- The result dictionary of optimize (stock.py lines 196-209). -/
structure OptResult where
  total_cost : ℚ
  total_waste : ℚ
  cutting_patterns : List PlanEntry
  status : SolStatus
  iterations : ℕ
  theoretical_minimums : TheoreticalMinimums
  cost_gap : ℚ
  waste_gap : ℚ
deriving DecidableEq, Repr

/-- The final `self.patterns`/`self.pattern_costs` state after optimize's
column-generation loop (stock.py lines 166-180). -/
def finalState (O : SolverOracle) (stocks : List StockOption)
    (cuts : List RequiredCut) : List Pattern × List ℚ :=
  (cgLoop O stocks 100 (generateInitialPatterns stocks cuts)).1

/-- The final value of the Python variable `iteration` (stock.py line 201). -/
def finalIters (O : SolverOracle) (stocks : List StockOption)
    (cuts : List RequiredCut) : ℕ :=
  (cgLoop O stocks 100 (generateInitialPatterns stocks cuts)).2

/-- The integer-master primal solution `pattern_usage` that optimize receives
from the solver (stock.py line 194). -/
def finalUsage (O : SolverOracle) (stocks : List StockOption)
    (cuts : List RequiredCut) : List ℚ :=
  (O.ip (finalState O stocks cuts).1 (finalState O stocks cuts).2).1

/-- stock.py lines 164-211, optimize: seeding, the column-generation loop with
cap 100, the final integer master (delegated to the oracle), then result
assembly.  The total cost is the solver objective `Σ pattern_costs·usage` on
the solver solution.  Python run-time errors are modelled by `none`: the
empty-stock `min`/`max` in the theoretical minimums, indexing or empty-`max`
failures inside calculate_waste and format_solution, and the
ZeroDivisionError in the cost-gap division when `min_theoretical_cost` is
zero (the waste gap is guarded in the source, the cost gap is not). -/
def optimize (O : SolverOracle) (stocks : List StockOption)
    (cuts : List RequiredCut) (descs : List String) : Option OptResult :=
  match calculateTheoreticalMinimums stocks cuts with
  | none => none
  | some theo =>
    match calculateWaste stocks cuts (finalState O stocks cuts).1
        (finalState O stocks cuts).2 (finalUsage O stocks cuts) with
    | none => none
    | some totalWaste =>
      match formatSolution stocks cuts descs (finalState O stocks cuts).1
          (finalState O stocks cuts).2 (finalUsage O stocks cuts) with
      | none => none
      | some plan =>
        if theo.min_theoretical_cost = 0 then none
        else
          some { total_cost := dotQ (finalState O stocks cuts).2
                   (finalUsage O stocks cuts),
                 total_waste := totalWaste,
                 cutting_patterns := plan,
                 status := (O.ip (finalState O stocks cuts).1
                   (finalState O stocks cuts).2).2,
                 iterations := finalIters O stocks cuts,
                 theoretical_minimums := theo,
                 cost_gap := (dotQ (finalState O stocks cuts).2
                     (finalUsage O stocks cuts) - theo.min_theoretical_cost) /
                   theo.min_theoretical_cost * 100,
                 waste_gap := if 0 < theo.min_theoretical_waste then
                     (totalWaste - theo.min_theoretical_waste) /
                       theo.min_theoretical_waste * 100
                   else 0 }

/-- A concrete oracle for closed evaluations: empty knapsack solutions and an
all-zero integer solution. -/
def trivialOracle : SolverOracle where
  duals := fun _ => []
  knapSol := fun _ _ => []
  ip := fun pats _ => (List.replicate pats.length 0, SolStatus.optimal)

/-- A concrete oracle for closed evaluations on single-cut instances: zero
duals, zero knapsack solutions, and an all-one integer solution. -/
def demoOracle : SolverOracle where
  duals := fun _ => [0]
  knapSol := fun _ _ => [0]
  ip := fun pats _ => (List.replicate pats.length 1, SolStatus.optimal)

/-- Demo instance: one 96-inch stock at price 10. -/
def demoStocks : List StockOption := [⟨96, 10⟩]

/-- Demo instance: two 48-inch cuts. -/
def demoCuts : List RequiredCut := [⟨48, 2⟩]

/-- Demo instance: the part description column. -/
def demoDescs : List String := ["A"]

/-- The value of `optimize demoOracle demoStocks demoCuts demoDescs`. -/
def resDemo : OptResult :=
  { total_cost := 10, total_waste := 0,
    cutting_patterns := [{ stock_length := 96, stock_length_feet := 8,
                           cuts := [48, 48],
                           cut_details := [{ length := 48, count := 2,
                                             description := "A" }],
                           times_used := 1 }],
    status := SolStatus.optimal, iterations := 0,
    theoretical_minimums := { total_length_needed := 96,
                              min_theoretical_cost := 10,
                              min_boards_by_length := [(96, 1, 10)],
                              min_theoretical_waste := 0,
                              price_efficiency := (5 / 48, 96, 10) },
    cost_gap := 0, waste_gap := 0 }

/-! ### Helper lemmas -/

theorem foldl_max_mem (a : ℚ) (l : List ℚ) : l.foldl max a ∈ a :: l := by
  induction l generalizing a with
  | nil => simp
  | cons x xs ih =>
    simp only [List.foldl_cons]
    rcases List.mem_cons.mp (ih (max a x)) with h | h
    · rw [h]
      rcases max_choice a x with h2 | h2 <;> rw [h2] <;> simp
    · exact List.mem_cons_of_mem _ (List.mem_cons_of_mem _ h)

theorem le_foldl_max (a : ℚ) (l : List ℚ) :
    a ≤ l.foldl max a ∧ ∀ x ∈ l, x ≤ l.foldl max a := by
  induction l generalizing a with
  | nil => simp
  | cons x xs ih =>
    obtain ⟨h1, h2⟩ := ih (max a x)
    refine ⟨le_trans (le_max_left a x) h1, ?_⟩
    intro y hy
    rcases List.mem_cons.mp hy with rfl | hy
    · exact le_trans (le_max_right a y) h1
    · exact h2 y hy

theorem max?_spec {l : List ℚ} {m : ℚ} (h : l.max? = some m) :
    m ∈ l ∧ ∀ x ∈ l, x ≤ m := by
  cases l with
  | nil => simp [List.max?] at h
  | cons a as =>
    have hm : as.foldl max a = m := by simpa [List.max?] using h
    subst hm
    refine ⟨foldl_max_mem a as, ?_⟩
    intro x hx
    rcases List.mem_cons.mp hx with rfl | hx
    · exact (le_foldl_max x as).1
    · exact (le_foldl_max a as).2 x hx

theorem max?_isSome_of_mem {l : List ℚ} {x : ℚ} (h : x ∈ l) : l.max?.isSome := by
  cases l with
  | nil => simp at h
  | cons a as => simp [List.max?]

theorem foldl_minBy_spec (x : ℚ × ℚ × ℚ) (xs : List (ℚ × ℚ × ℚ)) :
    (xs.foldl (fun b y => if y.1 < b.1 then y else b) x) ∈ x :: xs ∧
    (xs.foldl (fun b y => if y.1 < b.1 then y else b) x).1 ≤ x.1 ∧
    ∀ y ∈ xs, (xs.foldl (fun b y => if y.1 < b.1 then y else b) x).1 ≤ y.1 := by
  induction xs generalizing x with
  | nil => simp
  | cons z zs ih =>
    simp only [List.foldl_cons]
    obtain ⟨hmem, hle, hall⟩ := ih (if z.1 < x.1 then z else x)
    constructor
    · rcases List.mem_cons.mp hmem with h | h
      · rw [h]
        by_cases hz : z.1 < x.1
        · rw [if_pos hz]; simp
        · rw [if_neg hz]; simp
      · exact List.mem_cons_of_mem _ (List.mem_cons_of_mem _ h)
    constructor
    · refine le_trans hle ?_
      by_cases hz : z.1 < x.1
      · rw [if_pos hz]; exact le_of_lt hz
      · rw [if_neg hz]
    · intro w hw
      rcases List.mem_cons.mp hw with rfl | hw2
      · refine le_trans hle ?_
        by_cases hz : w.1 < x.1
        · rw [if_pos hz]
        · rw [if_neg hz]; exact le_of_not_lt hz
      · exact hall w hw2

theorem minByFirst_spec {l : List (ℚ × ℚ × ℚ)} {m : ℚ × ℚ × ℚ}
    (h : minByFirst l = some m) : m ∈ l ∧ ∀ x ∈ l, m.1 ≤ x.1 := by
  cases l with
  | nil => simp [minByFirst] at h
  | cons a as =>
    have hm : as.foldl (fun b y => if y.1 < b.1 then y else b) a = m := by
      simpa [minByFirst] using h
    subst hm
    obtain ⟨hmem, hle, hall⟩ := foldl_minBy_spec a as
    refine ⟨hmem, ?_⟩
    intro x hx
    rcases List.mem_cons.mp hx with rfl | hx
    · exact hle
    · exact hall x hx

theorem foldlM_option_isSome {α β : Type} (f : β → α → Option β) :
    ∀ (l : List α) (acc : β), (∀ x ∈ l, ∀ b, (f b x).isSome) →
      (l.foldlM f acc).isSome := by
  intro l
  induction l with
  | nil => intro acc _; simp [List.foldlM_nil]
  | cons x xs ih =>
    intro acc h
    have hx := h x (List.mem_cons_self x xs) acc
    cases hfx : f acc x with
    | none => rw [hfx] at hx; simp at hx
    | some b2 =>
      rw [List.foldlM_cons, hfx]
      simpa using ih b2 fun y hy b => h y (List.mem_cons_of_mem _ hy) b

theorem foldlM_option_add {α : Type} (step : ℚ → α → Option ℚ) (g : α → ℚ) :
    ∀ (l : List α) (acc : ℚ),
      (∀ x ∈ l, ∀ a, step a x = some (a + g x)) →
      l.foldlM step acc = some (acc + (l.map g).sum) := by
  intro l
  induction l with
  | nil => intro acc _; simp [List.foldlM_nil]
  | cons x xs ih =>
    intro acc h
    rw [List.foldlM_cons, h x (List.mem_cons_self x xs) acc]
    have := ih (acc + g x) fun y hy a => h y (List.mem_cons_of_mem _ hy) a
    simpa [add_assoc] using this

theorem dotQ_map_range (u : List ℚ) (f : ℕ → ℚ) :
    dotQ ((List.range u.length).map f) u =
      ∑ j ∈ Finset.range u.length, f j * u.getD j 0 := by
  induction u generalizing f with
  | nil => simp [dotQ]
  | cons x xs ih =>
    have hr : List.range (xs.length + 1) = 0 :: (List.range xs.length).map Nat.succ :=
      List.range_succ_eq_map xs.length
    have hmm : ((List.range xs.length).map Nat.succ).map f =
        (List.range xs.length).map fun j => f (j + 1) := by
      rw [List.map_map]; rfl
    have hdot : dotQ ((List.range (x :: xs).length).map f) (x :: xs) =
        f 0 * x + dotQ ((List.range xs.length).map fun j => f (j + 1)) xs := by
      show dotQ ((List.range (xs.length + 1)).map f) (x :: xs) = _
      rw [hr]
      simp only [List.map_cons, hmm]
      simp [dotQ]
    rw [hdot, ih fun j => f (j + 1), List.length_cons,
      Finset.sum_range_succ' (fun j => f j * (x :: xs).getD j 0) xs.length]
    simp only [List.getD_cons_succ, List.getD_cons_zero]
    ring

theorem foldl_pairApp {α : Type} (f : α → List Pattern × List ℚ) :
    ∀ (l : List α) (st : List Pattern × List ℚ),
      l.foldl (fun st2 x => pairApp st2 (f x)) st =
        (st.1 ++ ((l.map f).map Prod.fst).flatten,
         st.2 ++ ((l.map f).map Prod.snd).flatten) := by
  intro l
  induction l with
  | nil => intro st; simp
  | cons x xs ih =>
    intro st
    simp only [List.foldl_cons, List.map_cons, List.flatten_cons]
    rw [ih]
    simp [pairApp, List.append_assoc]

theorem block_fst (s : StockOption) (n : ℕ) (l : List (ℕ × RequiredCut)) :
    ((l.map (seedOne s n)).map Prod.fst).flatten =
      (l.filterMap fun ic =>
        let m : ℤ := ⌊s.length / ic.2.length⌋
        if 0 < m then some (unitPattern n ic.1 m.toNat, s.price) else none).map
        Prod.fst := by
  induction l with
  | nil => simp
  | cons x xs ih =>
    simp only [List.map_cons, List.flatten_cons, List.filterMap_cons]
    by_cases h : 0 < (⌊s.length / x.2.length⌋ : ℤ)
    · simp only [seedOne, if_pos h]
      rw [ih]
      simp
    · simp only [seedOne, if_neg h]
      rw [ih]
      simp

theorem block_snd (s : StockOption) (n : ℕ) (l : List (ℕ × RequiredCut)) :
    ((l.map (seedOne s n)).map Prod.snd).flatten =
      (l.filterMap fun ic =>
        let m : ℤ := ⌊s.length / ic.2.length⌋
        if 0 < m then some (unitPattern n ic.1 m.toNat, s.price) else none).map
        Prod.snd := by
  induction l with
  | nil => simp
  | cons x xs ih =>
    simp only [List.map_cons, List.flatten_cons, List.filterMap_cons]
    by_cases h : 0 < (⌊s.length / x.2.length⌋ : ℤ)
    · simp only [seedOne, if_pos h]
      rw [ih]
      simp
    · simp only [seedOne, if_neg h]
      rw [ih]
      simp

theorem spec_fst (stocks : List StockOption) (cuts : List RequiredCut) :
    (seededPatternsSpec stocks cuts).map Prod.fst =
      (stocks.map fun s =>
        ((cuts.enum.map (seedOne s cuts.length)).map Prod.fst).flatten).flatten := by
  induction stocks with
  | nil => simp [seededPatternsSpec]
  | cons s ss ih =>
    simp only [seededPatternsSpec] at ih ⊢
    rw [List.flatMap_cons, List.map_append, List.map_cons, List.flatten_cons, ih,
      ← block_fst]

theorem spec_snd (stocks : List StockOption) (cuts : List RequiredCut) :
    (seededPatternsSpec stocks cuts).map Prod.snd =
      (stocks.map fun s =>
        ((cuts.enum.map (seedOne s cuts.length)).map Prod.snd).flatten).flatten := by
  induction stocks with
  | nil => simp [seededPatternsSpec]
  | cons s ss ih =>
    simp only [seededPatternsSpec] at ih ⊢
    rw [List.flatMap_cons, List.map_append, List.map_cons, List.flatten_cons, ih,
      ← block_snd]

theorem genInit_eq (stocks : List StockOption) (cuts : List RequiredCut) :
    generateInitialPatterns stocks cuts =
      ((seededPatternsSpec stocks cuts).map Prod.fst,
       (seededPatternsSpec stocks cuts).map Prod.snd) := by
  unfold generateInitialPatterns
  have hinner : ∀ (st : List Pattern × List ℚ) (stock : StockOption),
      cuts.enum.foldl (fun st2 ic => pairApp st2 (seedOne stock cuts.length ic)) st =
        pairApp st
          (((cuts.enum.map (seedOne stock cuts.length)).map Prod.fst).flatten,
           ((cuts.enum.map (seedOne stock cuts.length)).map Prod.snd).flatten) := by
    intro st stock
    rw [foldl_pairApp]
    rfl
  simp only [hinner]
  rw [foldl_pairApp fun stock =>
    (((cuts.enum.map (seedOne stock cuts.length)).map Prod.fst).flatten,
     ((cuts.enum.map (seedOne stock cuts.length)).map Prod.snd).flatten)]
  simp only [List.nil_append, List.map_map]
  rw [Prod.mk.injEq]
  constructor
  · rw [spec_fst]
    congr 1
    congr 1
    funext stock
    show (List.map (Prod.fst ∘ seedOne stock cuts.length) cuts.enum).flatten = _
    rw [List.map_map]
  · rw [spec_snd]
    congr 1
    congr 1
    funext stock
    show (List.map (Prod.snd ∘ seedOne stock cuts.length) cuts.enum).flatten = _
    rw [List.map_map]

theorem unitPattern_length (n i count : ℕ) : (unitPattern n i count).length = n := by
  simp [unitPattern]

theorem unitPattern_getD (n i count j : ℕ) (h : j < n) :
    (unitPattern n i count).getD j 0 = if j = i then count else 0 := by
  simp [unitPattern, List.getD_eq_getElem?_getD, List.getElem?_map,
    List.getElem?_range h]

theorem cgStep_some {O : SolverOracle} {stocks : List StockOption}
    {st st2 : List Pattern × List ℚ} (h : cgStep O stocks st = some st2) :
    ∃ pat rc sc, solveSubproblem O stocks (O.duals st) = some (pat, rc, sc) ∧
      ¬(-eps ≤ rc) ∧ st2 = (st.1 ++ [pat], st.2 ++ [sc]) := by
  unfold cgStep at h
  cases hs : solveSubproblem O stocks (O.duals st) with
  | none => rw [hs] at h; simp at h
  | some t =>
    obtain ⟨pat, rc, sc⟩ := t
    rw [hs] at h
    have h2 : (if -eps ≤ rc then none else
        some (st.1 ++ [pat], st.2 ++ [sc]) : Option (List Pattern × List ℚ)) =
          some st2 := h
    by_cases hrc : -eps ≤ rc
    · rw [if_pos hrc] at h2; simp at h2
    · rw [if_neg hrc] at h2
      exact ⟨pat, rc, sc, rfl, hrc, (Option.some.inj h2).symm⟩

theorem cgStep_none {O : SolverOracle} {stocks : List StockOption}
    {st : List Pattern × List ℚ} (h : cgStep O stocks st = none) :
    ∀ pat rc sc, solveSubproblem O stocks (O.duals st) = some (pat, rc, sc) →
      -eps ≤ rc := by
  intro pat rc sc hs
  unfold cgStep at h
  rw [hs] at h
  have h2 : (if -eps ≤ rc then none else
      some (st.1 ++ [pat], st.2 ++ [sc]) : Option (List Pattern × List ℚ)) = none := h
  by_cases hrc : -eps ≤ rc
  · exact hrc
  · rw [if_neg hrc] at h2; simp at h2

theorem cgLoop_spec (O : SolverOracle) (stocks : List StockOption) :
    ∀ (fuel : ℕ) (st : List Pattern × List ℚ),
      (cgLoop O stocks fuel st).2 ≤ fuel ∧
      stepN O stocks (cgLoop O stocks fuel st).2 st =
        some (cgLoop O stocks fuel st).1 ∧
      ((cgLoop O stocks fuel st).2 < fuel →
        cgStep O stocks (cgLoop O stocks fuel st).1 = none) ∧
      (cgLoop O stocks fuel st).1.1.length =
        st.1.length + (cgLoop O stocks fuel st).2 ∧
      (cgLoop O stocks fuel st).1.2.length =
        st.2.length + (cgLoop O stocks fuel st).2 := by
  intro fuel
  induction fuel with
  | zero =>
    intro st
    simp [cgLoop, stepN]
  | succ fuel ih =>
    intro st
    cases hstep : cgStep O stocks st with
    | none =>
      have hl : cgLoop O stocks (fuel + 1) st = (st, 0) := by
        simp [cgLoop, hstep]
      rw [hl]
      exact ⟨Nat.zero_le _, by simp [stepN], fun _ => hstep, by simp, by simp⟩
    | some st2 =>
      have hl : cgLoop O stocks (fuel + 1) st =
          ((cgLoop O stocks fuel st2).1, (cgLoop O stocks fuel st2).2 + 1) := by
        simp [cgLoop, hstep]
      obtain ⟨h1, h2, h3, h4, h5⟩ := ih st2
      obtain ⟨pat, rc, sc, -, -, hst2⟩ := cgStep_some hstep
      have hlen1 : st2.1.length = st.1.length + 1 := by rw [hst2]; simp
      have hlen2 : st2.2.length = st.2.length + 1 := by rw [hst2]; simp
      rw [hl]
      refine ⟨Nat.succ_le_succ h1, ?_, ?_, ?_, ?_⟩
      · show stepN O stocks ((cgLoop O stocks fuel st2).2 + 1) st = _
        simp only [stepN, hstep, Option.some_bind]
        exact h2
      · intro hlt
        exact h3 (Nat.lt_of_succ_lt_succ hlt)
      · show (cgLoop O stocks fuel st2).1.1.length = st.1.length + _
        rw [h4, hlen1]; omega
      · show (cgLoop O stocks fuel st2).1.2.length = st.2.length + _
        rw [h5, hlen2]; omega

theorem solveSubproblem_aux (O : SolverOracle) (duals : List ℚ) :
    ∀ (l : List StockOption) (b : Option (Pattern × ℚ × ℚ)) (t : Pattern × ℚ × ℚ),
      (l.foldl (fun best stock =>
        let pr := solveKnapsack (O.knapSol stock duals) duals stock.price
        match best with
        | none => some (pr.1, pr.2, stock.price)
        | some bb => if pr.2 < bb.2.1 then some (pr.1, pr.2, stock.price) else best)
        b) = some t →
      (∃ s ∈ l, s.price = t.2.2) ∨ b = some t := by
  intro l
  induction l with
  | nil => intro b t h; right; exact h
  | cons s xs ih =>
    intro b t h
    rw [List.foldl_cons] at h
    rcases ih _ t h with h2 | h2
    · left
      obtain ⟨w, hw, hwp⟩ := h2
      exact ⟨w, List.mem_cons_of_mem _ hw, hwp⟩
    · cases b with
      | none =>
        have h3 : some ((solveKnapsack (O.knapSol s duals) duals s.price).1,
            (solveKnapsack (O.knapSol s duals) duals s.price).2, s.price) =
              some t := h2
        left
        refine ⟨s, List.mem_cons_self s xs, ?_⟩
        rw [← Option.some.inj h3]
      | some bb =>
        have h3 : (if (solveKnapsack (O.knapSol s duals) duals s.price).2 < bb.2.1
            then some ((solveKnapsack (O.knapSol s duals) duals s.price).1,
              (solveKnapsack (O.knapSol s duals) duals s.price).2, s.price)
            else some bb) = some t := h2
        by_cases hlt : (solveKnapsack (O.knapSol s duals) duals s.price).2 < bb.2.1
        · left
          rw [if_pos hlt] at h3
          refine ⟨s, List.mem_cons_self s xs, ?_⟩
          rw [← Option.some.inj h3]
        · right
          rw [if_neg hlt] at h3
          exact h3

theorem solveSubproblem_price {O : SolverOracle} {stocks : List StockOption}
    {duals : List ℚ} {pat : Pattern} {rc sc : ℚ}
    (h : solveSubproblem O stocks duals = some (pat, rc, sc)) :
    ∃ s ∈ stocks, s.price = sc := by
  unfold solveSubproblem at h
  rcases solveSubproblem_aux O duals stocks none (pat, rc, sc) h with h2 | h2
  · exact h2
  · simp at h2

theorem enum_get? {α : Type} {l : List α} {i : ℕ} {x : α} (h : (i, x) ∈ l.enum) :
    l.get? i = some x := by
  rw [List.get?_eq_getElem?]
  exact List.mem_enum_iff_getElem?.mp h

theorem get?_isSome_of_lt {α : Type} {l : List α} {i : ℕ} (h : i < l.length) :
    (l.get? i).isSome := by
  rw [List.get?_eq_getElem?, List.getElem?_eq_getElem h]
  rfl

theorem stockLengthFor_isSome {stocks : List StockOption} {c : ℚ}
    (h : ∃ s ∈ stocks, s.price = c) : (stockLengthFor stocks c).isSome := by
  obtain ⟨s, hs, hp⟩ := h
  have hmem : s.length ∈ matchingLengths stocks c := by
    unfold matchingLengths
    refine List.mem_map.mpr ⟨s, ?_, rfl⟩
    refine List.mem_filter.mpr ⟨hs, ?_⟩
    rw [decide_eq_true_eq, hp]
    norm_num [eps]
  exact max?_isSome_of_mem hmem

theorem stockLengthFor_spec {stocks : List StockOption} {c : ℚ} {L : ℚ}
    (h : stockLengthFor stocks c = some L) :
    L ∈ matchingLengths stocks c ∧ ∀ x ∈ matchingLengths stocks c, x ≤ L :=
  max?_spec h

theorem seedInv (stocks : List StockOption) (cuts : List RequiredCut) :
    (generateInitialPatterns stocks cuts).1.length =
      (generateInitialPatterns stocks cuts).2.length ∧
    (∀ c ∈ (generateInitialPatterns stocks cuts).2, ∃ s ∈ stocks, s.price = c) ∧
    (∀ p ∈ (generateInitialPatterns stocks cuts).1, p.length = cuts.length) := by
  rw [genInit_eq]
  refine ⟨by simp, ?_, ?_⟩
  · intro c hc
    obtain ⟨pc, hpc, hsnd⟩ := List.mem_map.mp hc
    obtain ⟨s, hs, hpc2⟩ := List.mem_flatMap.mp hpc
    obtain ⟨ic, -, heq⟩ := List.mem_filterMap.mp hpc2
    have heq2 : (if 0 < (⌊s.length / ic.2.length⌋ : ℤ) then
        some (unitPattern cuts.length ic.1 (⌊s.length / ic.2.length⌋ : ℤ).toNat,
          s.price)
      else none) = some pc := heq
    by_cases h0 : 0 < (⌊s.length / ic.2.length⌋ : ℤ)
    · rw [if_pos h0] at heq2
      refine ⟨s, hs, ?_⟩
      rw [← hsnd, ← Option.some.inj heq2]
    · rw [if_neg h0] at heq2
      simp at heq2
  · intro p hp
    obtain ⟨pc, hpc, hfst⟩ := List.mem_map.mp hp
    obtain ⟨s, -, hpc2⟩ := List.mem_flatMap.mp hpc
    obtain ⟨ic, -, heq⟩ := List.mem_filterMap.mp hpc2
    have heq2 : (if 0 < (⌊s.length / ic.2.length⌋ : ℤ) then
        some (unitPattern cuts.length ic.1 (⌊s.length / ic.2.length⌋ : ℤ).toNat,
          s.price)
      else none) = some pc := heq
    by_cases h0 : 0 < (⌊s.length / ic.2.length⌋ : ℤ)
    · rw [if_pos h0] at heq2
      rw [← hfst, ← Option.some.inj heq2]
      exact unitPattern_length cuts.length ic.1 _
    · rw [if_neg h0] at heq2
      simp at heq2

theorem cgLoop_inv (O : SolverOracle) (stocks : List StockOption) :
    ∀ (fuel : ℕ) (st : List Pattern × List ℚ),
      st.1.length = st.2.length → (∀ c ∈ st.2, ∃ s ∈ stocks, s.price = c) →
      (cgLoop O stocks fuel st).1.1.length = (cgLoop O stocks fuel st).1.2.length ∧
      ∀ c ∈ (cgLoop O stocks fuel st).1.2, ∃ s ∈ stocks, s.price = c := by
  intro fuel
  induction fuel with
  | zero => intro st h1 h2; exact ⟨h1, h2⟩
  | succ fuel ih =>
    intro st h1 h2
    cases hstep : cgStep O stocks st with
    | none =>
      have hl : cgLoop O stocks (fuel + 1) st = (st, 0) := by simp [cgLoop, hstep]
      rw [hl]
      exact ⟨h1, h2⟩
    | some st2 =>
      have hl : cgLoop O stocks (fuel + 1) st =
          ((cgLoop O stocks fuel st2).1, (cgLoop O stocks fuel st2).2 + 1) := by
        simp [cgLoop, hstep]
      rw [hl]
      obtain ⟨pat, rc, sc, hsub, -, hst2⟩ := cgStep_some hstep
      have h1n : st2.1.length = st2.2.length := by rw [hst2]; simp [h1]
      have h2n : ∀ c ∈ st2.2, ∃ s ∈ stocks, s.price = c := by
        intro c hc
        rw [hst2] at hc
        rcases List.mem_append.mp hc with hc | hc
        · exact h2 c hc
        · have hcsc : c = sc := by simpa using hc
          subst hcsc
          exact solveSubproblem_price hsub
      exact ih st2 h1n h2n

theorem calculateWaste_isSome {stocks : List StockOption} {cuts : List RequiredCut}
    {patterns : List Pattern} {costs : List ℚ} {usage : List ℚ}
    (hlen1 : usage.length = patterns.length)
    (hlen2 : patterns.length = costs.length)
    (hc : ∀ c ∈ costs, ∃ s ∈ stocks, s.price = c) :
    (calculateWaste stocks cuts patterns costs usage).isSome := by
  unfold calculateWaste
  apply foldlM_option_isSome
  intro iu hiu acc
  have hgi := enum_get? hiu
  have hlt : iu.1 < usage.length := (List.get?_eq_some.mp hgi).1
  by_cases hu : eps < iu.2
  · rw [if_pos hu]
    obtain ⟨pat, hpat⟩ := Option.isSome_iff_exists.mp
      (get?_isSome_of_lt (l := patterns) (hlen1 ▸ hlt))
    obtain ⟨cost, hcost⟩ := Option.isSome_iff_exists.mp
      (get?_isSome_of_lt (l := costs) (hlen2 ▸ hlen1 ▸ hlt))
    rw [hpat, hcost]
    obtain ⟨sl, hsl⟩ := Option.isSome_iff_exists.mp
      (stockLengthFor_isSome (hc cost (List.get?_mem hcost)))
    show (match stockLengthFor stocks cost with
      | some sl => some (acc + (sl - usedLength cuts pat) * iu.2)
      | none => none).isSome = true
    rw [hsl]
    rfl
  · rw [if_neg hu]
    rfl

theorem buildCutDetails_isSome {cuts : List RequiredCut} {descs : List String}
    {pat : Pattern} (hp : pat.length = cuts.length)
    (hd : descs.length = cuts.length) :
    (buildCutDetails cuts descs pat).isSome := by
  unfold buildCutDetails
  apply foldlM_option_isSome
  intro jc hjc acc
  have hgj := enum_get? hjc
  have hlt : jc.1 < pat.length := (List.get?_eq_some.mp hgj).1
  by_cases h0 : 0 < jc.2
  · rw [if_pos h0]
    obtain ⟨c, hceq⟩ := Option.isSome_iff_exists.mp
      (get?_isSome_of_lt (l := cuts) (hp ▸ hlt))
    obtain ⟨d, hdeq⟩ := Option.isSome_iff_exists.mp
      (get?_isSome_of_lt (l := descs) (hd.symm ▸ hp ▸ hlt))
    rw [hceq, hdeq]
    rfl
  · rw [if_neg h0]
    rfl

theorem formatSolution_isSome {stocks : List StockOption} {cuts : List RequiredCut}
    {descs : List String} {patterns : List Pattern} {costs : List ℚ}
    {usage : List ℚ}
    (hlen1 : usage.length = patterns.length)
    (hlen2 : patterns.length = costs.length)
    (hc : ∀ c ∈ costs, ∃ s ∈ stocks, s.price = c)
    (hplen : ∀ p ∈ patterns, p.length = cuts.length)
    (hd : descs.length = cuts.length) :
    (formatSolution stocks cuts descs patterns costs usage).isSome := by
  unfold formatSolution
  apply foldlM_option_isSome
  intro iu hiu acc
  have hgi := enum_get? hiu
  have hlt : iu.1 < usage.length := (List.get?_eq_some.mp hgi).1
  by_cases hu : eps < iu.2
  · rw [if_pos hu]
    obtain ⟨pat, hpat⟩ := Option.isSome_iff_exists.mp
      (get?_isSome_of_lt (l := patterns) (hlen1 ▸ hlt))
    obtain ⟨cost, hcost⟩ := Option.isSome_iff_exists.mp
      (get?_isSome_of_lt (l := costs) (hlen2 ▸ hlen1 ▸ hlt))
    rw [hpat, hcost]
    obtain ⟨cd, hcd⟩ := Option.isSome_iff_exists.mp
      (buildCutDetails_isSome (hplen pat (List.get?_mem hpat)) hd)
    obtain ⟨sl, hsl⟩ := Option.isSome_iff_exists.mp
      (stockLengthFor_isSome (hc cost (List.get?_mem hcost)))
    show ((match buildCutDetails cuts descs pat, stockLengthFor stocks cost with
      | some cd, some sl =>
        some (acc ++ [{ stock_length := sl, stock_length_feet := sl / 12,
                        cuts := cd.1, cut_details := cd.2,
                        times_used := pyRound iu.2 }])
      | _, _ => none : Option (List PlanEntry))).isSome = true
    rw [hcd, hsl]
    rfl
  · rw [if_neg hu]
    rfl

theorem optimize_inversion {O : SolverOracle} {stocks : List StockOption}
    {cuts : List RequiredCut} {descs : List String} {res : OptResult}
    (h : optimize O stocks cuts descs = some res) :
    ∃ theo tw plan,
      calculateTheoreticalMinimums stocks cuts = some theo ∧
      calculateWaste stocks cuts (finalState O stocks cuts).1
          (finalState O stocks cuts).2 (finalUsage O stocks cuts) = some tw ∧
      formatSolution stocks cuts descs (finalState O stocks cuts).1
          (finalState O stocks cuts).2 (finalUsage O stocks cuts) = some plan ∧
      theo.min_theoretical_cost ≠ 0 ∧
      res = { total_cost := dotQ (finalState O stocks cuts).2
                (finalUsage O stocks cuts),
              total_waste := tw, cutting_patterns := plan,
              status := (O.ip (finalState O stocks cuts).1
                (finalState O stocks cuts).2).2,
              iterations := finalIters O stocks cuts,
              theoretical_minimums := theo,
              cost_gap := (dotQ (finalState O stocks cuts).2
                  (finalUsage O stocks cuts) - theo.min_theoretical_cost) /
                theo.min_theoretical_cost * 100,
              waste_gap := if 0 < theo.min_theoretical_waste then
                  (tw - theo.min_theoretical_waste) /
                    theo.min_theoretical_waste * 100
                else 0 } := by
  unfold optimize at h
  split at h
  · simp at h
  next theo hth =>
    split at h
    · simp at h
    next tw hw =>
      split at h
      · simp at h
      next plan hp =>
        split at h
        · simp at h
        next hmtc =>
          exact ⟨theo, tw, plan, hth, hw, hp, hmtc, (Option.some.inj h).symm⟩

theorem demo_seed : generateInitialPatterns demoStocks demoCuts = ([[2]], [10]) := by
  norm_num [generateInitialPatterns, seedOne, unitPattern, pairApp, demoStocks,
    demoCuts, List.enum, List.enumFrom, List.range_succ]
  simp

theorem demo_cgStep : cgStep demoOracle demoStocks ([[2]], [10]) = none := by
  norm_num [cgStep, solveSubproblem, solveKnapsack, demoOracle, demoStocks, eps]

theorem demo_cgLoop :
    cgLoop demoOracle demoStocks 100 (generateInitialPatterns demoStocks demoCuts) =
      (([[2]], [10]), 0) := by
  rw [demo_seed]
  simp [cgLoop, demo_cgStep]

theorem demo_finalState : finalState demoOracle demoStocks demoCuts = ([[2]], [10]) := by
  rw [finalState, demo_cgLoop]

theorem demo_finalUsage : finalUsage demoOracle demoStocks demoCuts = [1] := by
  rw [finalUsage, demo_finalState]
  rfl

theorem demo_optimize :
    optimize demoOracle demoStocks demoCuts demoDescs = some resDemo := by
  norm_num [optimize, finalState, finalUsage, finalIters, cgLoop, cgStep,
    solveSubproblem, solveKnapsack, generateInitialPatterns, seedOne, unitPattern,
    pairApp, calculateTheoreticalMinimums, minByFirst, dictInsert, ffdLoop,
    sortDesc, allCutsSorted, totalLengthNeeded, calculateWaste, formatSolution,
    buildCutDetails, stockLengthFor, matchingLengths, usedLength, pyRound, dotQ,
    eps, demoOracle, demoStocks, demoCuts, demoDescs, resDemo,
    List.range_succ, List.insertionSort, List.orderedInsert,
    List.enum, List.enumFrom, List.foldlM_cons, List.foldlM_nil, List.max?]
  simp
  norm_num [List.replicate]

/-! ### Claim theorems -/

/-- C4: initial pattern seeding appends, for every (stock, cut) pair with
`floor(stock.length / cut.length) ≥ 1`, exactly one pattern whose cost is that
stock's price and whose counts vector has that floor at the cut's index and
zero everywhere else, and no other patterns: the code-shaped nested loops of
generate_initial_patterns produce exactly the specification-shaped
comprehension `seededPatternsSpec`, whose counts vectors are the unit vectors
`unitPattern` with the floor at position `i` and zero elsewhere. -/
theorem initial_patterns_characterization (stocks : List StockOption)
    (cuts : List RequiredCut) :
    generateInitialPatterns stocks cuts =
      ((seededPatternsSpec stocks cuts).map Prod.fst,
       (seededPatternsSpec stocks cuts).map Prod.snd) ∧
    (∀ i count j, j < cuts.length →
      (unitPattern cuts.length i count).getD j 0 = if j = i then count else 0) ∧
    ∀ i count, (unitPattern cuts.length i count).length = cuts.length :=
  ⟨genInit_eq stocks cuts,
   fun i count j hj => unitPattern_getD cuts.length i count j hj,
   fun i count => unitPattern_length cuts.length i count⟩

/-- Witness for C4 at the concrete demo instance. -/
theorem initial_patterns_characterization_witness :
    generateInitialPatterns demoStocks demoCuts =
      ((seededPatternsSpec demoStocks demoCuts).map Prod.fst,
       (seededPatternsSpec demoStocks demoCuts).map Prod.snd) ∧
    (∀ i count j, j < demoCuts.length →
      (unitPattern demoCuts.length i count).getD j 0 =
        if j = i then count else 0) ∧
    ∀ i count, (unitPattern demoCuts.length i count).length = demoCuts.length :=
  initial_patterns_characterization demoStocks demoCuts

/-- C10: after seeding and any number of column-generation steps (any fuel,
hence at every point of an optimize run) the patterns and pattern_costs lists
have equal length and every pattern cost is exactly the price of some stock
option; consequently the set of stocks whose price is within 1e-6 of a stored
cost is non-empty, the max-length lookup `stockLengthFor` never fails, and
calculate_waste (and format_solution, whenever every stored pattern has one
count per cut) returns a value rather than raising. -/
theorem pattern_costs_invariant (O : SolverOracle) (stocks : List StockOption)
    (cuts : List RequiredCut) (fuel : ℕ) (st : List Pattern × List ℚ) (n : ℕ)
    (h : cgLoop O stocks fuel (generateInitialPatterns stocks cuts) = (st, n)) :
    st.1.length = st.2.length ∧
    (∀ c ∈ st.2, ∃ s ∈ stocks, s.price = c) ∧
    (∀ c ∈ st.2, (stockLengthFor stocks c).isSome) ∧
    (∀ usage : List ℚ, usage.length = st.1.length →
      (calculateWaste stocks cuts st.1 st.2 usage).isSome) ∧
    ((∀ p ∈ st.1, p.length = cuts.length) →
      ∀ (usage : List ℚ) (descs : List String), usage.length = st.1.length →
        descs.length = cuts.length →
        (formatSolution stocks cuts descs st.1 st.2 usage).isSome) := by
  obtain ⟨hs1, hs2, -⟩ := seedInv stocks cuts
  have hinv := cgLoop_inv O stocks fuel (generateInitialPatterns stocks cuts) hs1 hs2
  rw [h] at hinv
  obtain ⟨h1, h2⟩ := hinv
  refine ⟨h1, h2, ?_, ?_, ?_⟩
  · intro c hc
    exact stockLengthFor_isSome (h2 c hc)
  · intro usage hu
    exact calculateWaste_isSome hu h1 h2
  · intro hplen usage descs hu hd
    exact formatSolution_isSome hu h1 h2 hplen hd

/-- Witness for C10 at the concrete demo instance. -/
theorem pattern_costs_invariant_witness :
    (([[2]], [(10 : ℚ)]) : List Pattern × List ℚ).1.length =
      (([[2]], [(10 : ℚ)]) : List Pattern × List ℚ).2.length ∧
    (∀ c ∈ (([[2]], [(10 : ℚ)]) : List Pattern × List ℚ).2,
      ∃ s ∈ demoStocks, s.price = c) ∧
    (∀ c ∈ (([[2]], [(10 : ℚ)]) : List Pattern × List ℚ).2,
      (stockLengthFor demoStocks c).isSome) ∧
    (∀ usage : List ℚ,
      usage.length = (([[2]], [(10 : ℚ)]) : List Pattern × List ℚ).1.length →
      (calculateWaste demoStocks demoCuts [[2]] [10] usage).isSome) ∧
    ((∀ p ∈ (([[2]], [(10 : ℚ)]) : List Pattern × List ℚ).1,
        p.length = demoCuts.length) →
      ∀ (usage : List ℚ) (descs : List String),
        usage.length = (([[2]], [(10 : ℚ)]) : List Pattern × List ℚ).1.length →
        descs.length = demoCuts.length →
        (formatSolution demoStocks demoCuts descs [[2]] [10] usage).isSome) :=
  pattern_costs_invariant demoOracle demoStocks demoCuts 100 ([[2]], [10]) 0
    demo_cgLoop

/-- C3: the column-generation loop performs at most 100 pattern-appending
iterations (the final state holds exactly `iterations` more patterns than the
seeded state, reached by `iterations` successful steps, each of which — by
`cgStep` — had best reduced cost below -1e-6); when it stops short of the cap
the best reduced cost over all stocks at the final state is ≥ -1e-6; and the
result's iterations field records exactly this count. -/
theorem column_generation_cap (O : SolverOracle) (stocks : List StockOption)
    (cuts : List RequiredCut) (descs : List String) (res : OptResult)
    (h : optimize O stocks cuts descs = some res) :
    res.iterations ≤ 100 ∧
    ∃ st2, stepN O stocks res.iterations (generateInitialPatterns stocks cuts) =
        some st2 ∧
      st2.1.length = (generateInitialPatterns stocks cuts).1.length +
        res.iterations ∧
      (res.iterations < 100 →
        ∀ pat rc sc, solveSubproblem O stocks (O.duals st2) = some (pat, rc, sc) →
          -eps ≤ rc) := by
  obtain ⟨theo, tw, plan, -, -, -, -, hres⟩ := optimize_inversion h
  have hit : res.iterations = finalIters O stocks cuts := by rw [hres]
  obtain ⟨hle, hstep, hnone, hlen, -⟩ :=
    cgLoop_spec O stocks 100 (generateInitialPatterns stocks cuts)
  rw [hit]
  refine ⟨hle, (cgLoop O stocks 100 (generateInitialPatterns stocks cuts)).1,
    hstep, hlen, ?_⟩
  intro hlt pat rc sc hsub
  exact cgStep_none (hnone hlt) pat rc sc hsub

/-- Witness for C3 at the concrete demo instance. -/
theorem column_generation_cap_witness :
    resDemo.iterations ≤ 100 ∧
    ∃ st2, stepN demoOracle demoStocks resDemo.iterations
        (generateInitialPatterns demoStocks demoCuts) = some st2 ∧
      st2.1.length = (generateInitialPatterns demoStocks demoCuts).1.length +
        resDemo.iterations ∧
      (resDemo.iterations < 100 →
        ∀ pat rc sc, solveSubproblem demoOracle demoStocks
            (demoOracle.duals st2) = some (pat, rc, sc) →
          -eps ≤ rc) :=
  column_generation_cap demoOracle demoStocks demoCuts demoDescs resDemo
    demo_optimize

/-- C1: demand is met in every plan optimize returns.  The integer master the
code builds has exactly one constraint per required cut in cut-index order
(`masterDemandConstraints`); whenever the solver solution `finalUsage`
satisfies the constraints the code handed to it, the spec-level demand
inequality `Σ_p counts[i]·usage[p] ≥ quantity[i]` holds for every cut. -/
theorem demand_met (O : SolverOracle) (stocks : List StockOption)
    (cuts : List RequiredCut) (descs : List String) (res : OptResult)
    (h : optimize O stocks cuts descs = some res)
    (hlen : (finalUsage O stocks cuts).length = (finalState O stocks cuts).1.length)
    (hsat : ∀ c ∈ masterDemandConstraints (finalState O stocks cuts).1 cuts,
      c.2 ≤ dotQ c.1 (finalUsage O stocks cuts)) :
    ∀ i, ∀ hi : i < cuts.length,
      ((cuts.get ⟨i, hi⟩).quantity : ℚ) ≤
        ∑ j ∈ Finset.range (finalState O stocks cuts).1.length,
          ((((finalState O stocks cuts).1.getD j []).getD i 0 : ℕ) : ℚ) *
            (finalUsage O stocks cuts).getD j 0 := by
  intro i hi
  have hmem : (((List.range (finalState O stocks cuts).1.length).map fun j =>
      ((((finalState O stocks cuts).1.getD j []).getD i 0 : ℕ) : ℚ)),
      (((cuts.getD i default).quantity : ℤ) : ℚ)) ∈
      masterDemandConstraints (finalState O stocks cuts).1 cuts := by
    unfold masterDemandConstraints
    exact List.mem_map.mpr ⟨i, List.mem_range.mpr hi, rfl⟩
  have hsi := hsat _ hmem
  rw [show (finalState O stocks cuts).1.length =
    (finalUsage O stocks cuts).length from hlen.symm] at hsi ⊢
  rw [dotQ_map_range (finalUsage O stocks cuts) fun j =>
    ((((finalState O stocks cuts).1.getD j []).getD i 0 : ℕ) : ℚ)] at hsi
  have hgd : cuts.getD i default = cuts.get ⟨i, hi⟩ := by
    rw [List.getD_eq_getElem cuts default hi, List.get_eq_getElem]
  rw [hgd] at hsi
  exact hsi

/-- Witness for C1 at the concrete demo instance and cut index 0. -/
theorem demand_met_witness :
    ((demoCuts.get ⟨0, Nat.zero_lt_one⟩).quantity : ℚ) ≤
      ∑ j ∈ Finset.range (finalState demoOracle demoStocks demoCuts).1.length,
        ((((finalState demoOracle demoStocks demoCuts).1.getD j []).getD 0 0 :
          ℕ) : ℚ) *
          (finalUsage demoOracle demoStocks demoCuts).getD j 0 :=
  demand_met demoOracle demoStocks demoCuts demoDescs resDemo demo_optimize
    (by rw [demo_finalUsage, demo_finalState]; rfl)
    (by
      rw [demo_finalState, demo_finalUsage]
      intro c hc
      norm_num [masterDemandConstraints, demoCuts, List.range_succ] at hc
      rw [hc]
      norm_num [dotQ])
    0 Nat.zero_lt_one

theorem getD_of_get? {α : Type} {l : List α} {i : ℕ} {a d : α}
    (h : l.get? i = some a) : l.getD i d = a := by
  rw [List.getD_eq_getElem?_getD, ← List.get?_eq_getElem?, h]
  rfl

theorem stockLengthFor_isSome_tol {stocks : List StockOption} {c : ℚ}
    (h : ∃ s ∈ stocks, |s.price - c| < eps) :
    (stockLengthFor stocks c).isSome := by
  obtain ⟨s, hs, hp⟩ := h
  have hmem : s.length ∈ matchingLengths stocks c := by
    unfold matchingLengths
    refine List.mem_map.mpr ⟨s, ?_, rfl⟩
    exact List.mem_filter.mpr ⟨hs, by rw [decide_eq_true_eq]; exact hp⟩
  exact max?_isSome_of_mem hmem

/-- C6: for every pattern with usage above the 1e-6 reporting threshold, the
stock length used in waste accounting is the maximum length among stock
options whose price matches (within 1e-6) the pattern's stored cost, and
calculate_waste returns exactly the sum over such patterns of
`(stockLength − usedLength) · usage`. -/
theorem waste_accounting (stocks : List StockOption) (cuts : List RequiredCut)
    (patterns : List Pattern) (costs : List ℚ) (usage : List ℚ)
    (h1 : usage.length ≤ patterns.length) (h2 : usage.length ≤ costs.length)
    (hmatch : ∀ i u, usage.get? i = some u → eps < u →
      ∃ s ∈ stocks, |s.price - costs.getD i 0| < eps) :
    (∀ i u, usage.get? i = some u → eps < u →
      (stockLengthFor stocks (costs.getD i 0)).getD 0 ∈
          matchingLengths stocks (costs.getD i 0) ∧
        ∀ x ∈ matchingLengths stocks (costs.getD i 0),
          x ≤ (stockLengthFor stocks (costs.getD i 0)).getD 0) ∧
    calculateWaste stocks cuts patterns costs usage =
      some ((usage.enum.map fun iu =>
        if eps < iu.2 then
          ((stockLengthFor stocks (costs.getD iu.1 0)).getD 0 -
            usedLength cuts (patterns.getD iu.1 [])) * iu.2
        else 0).sum) := by
  have hLSome : ∀ i u, usage.get? i = some u → eps < u →
      ∃ L, stockLengthFor stocks (costs.getD i 0) = some L := by
    intro i u hg hu
    exact Option.isSome_iff_exists.mp (stockLengthFor_isSome_tol (hmatch i u hg hu))
  constructor
  · intro i u hg hu
    obtain ⟨L, hL⟩ := hLSome i u hg hu
    have hspec := stockLengthFor_spec hL
    rw [hL]
    exact ⟨hspec.1, hspec.2⟩
  · unfold calculateWaste
    rw [foldlM_option_add _ (fun iu =>
      if eps < iu.2 then
        ((stockLengthFor stocks (costs.getD iu.1 0)).getD 0 -
          usedLength cuts (patterns.getD iu.1 [])) * iu.2
      else 0) usage.enum 0 ?_, zero_add]
    intro iu hiu acc
    by_cases hu : eps < iu.2
    · have hg := enum_get? hiu
      have hlt : iu.1 < usage.length := (List.get?_eq_some.mp hg).1
      obtain ⟨pat, hpat⟩ := Option.isSome_iff_exists.mp
        (get?_isSome_of_lt (l := patterns) (lt_of_lt_of_le hlt h1))
      obtain ⟨cost, hcost⟩ := Option.isSome_iff_exists.mp
        (get?_isSome_of_lt (l := costs) (lt_of_lt_of_le hlt h2))
      have hcostD : costs.getD iu.1 0 = cost := getD_of_get? hcost
      have hpatD : patterns.getD iu.1 [] = pat := getD_of_get? hpat
      obtain ⟨L, hL⟩ := hLSome iu.1 iu.2 hg hu
      have hL2 : stockLengthFor stocks cost = some L := hcostD ▸ hL
      rw [if_pos hu, hpat, hcost]
      show (match stockLengthFor stocks cost with
        | some sl => some (acc + (sl - usedLength cuts pat) * iu.2)
        | none => none) =
        some (acc + if eps < iu.2 then
          ((stockLengthFor stocks (costs.getD iu.1 0)).getD 0 -
            usedLength cuts (patterns.getD iu.1 [])) * iu.2
        else 0)
      rw [hL2, if_pos hu, hL, Option.getD_some, hpatD]
    · rw [if_neg hu]
      show some acc =
        some (acc + if eps < iu.2 then
          ((stockLengthFor stocks (costs.getD iu.1 0)).getD 0 -
            usedLength cuts (patterns.getD iu.1 [])) * iu.2
        else 0)
      rw [if_neg hu, add_zero]

/-- Witness for C6 at the concrete demo instance. -/
theorem waste_accounting_witness :
    (∀ i u, [(1 : ℚ)].get? i = some u → eps < u →
      (stockLengthFor demoStocks ([(10 : ℚ)].getD i 0)).getD 0 ∈
          matchingLengths demoStocks ([(10 : ℚ)].getD i 0) ∧
        ∀ x ∈ matchingLengths demoStocks ([(10 : ℚ)].getD i 0),
          x ≤ (stockLengthFor demoStocks ([(10 : ℚ)].getD i 0)).getD 0) ∧
    calculateWaste demoStocks demoCuts [[2]] [10] [1] =
      some (([(1 : ℚ)].enum.map fun iu =>
        if eps < iu.2 then
          ((stockLengthFor demoStocks ([(10 : ℚ)].getD iu.1 0)).getD 0 -
            usedLength demoCuts (([[2]] : List Pattern).getD iu.1 [])) * iu.2
        else 0).sum) :=
  waste_accounting demoStocks demoCuts [[2]] [10] [1] (by norm_num) (by norm_num)
    (by
      intro i u hg hu
      cases i with
      | zero =>
        refine ⟨⟨96, 10⟩, by simp [demoStocks], ?_⟩
        norm_num [eps]
      | succ n => simp at hg)

/-- C8: the computed minimum theoretical cost equals the total demanded length
multiplied by the minimum over stock options of price / length (the first
component of the `min(..., key=x[0])` over the price-per-inch triples). -/
theorem min_theoretical_cost_formula (stocks : List StockOption)
    (cuts : List RequiredCut) (h : stocks ≠ []) :
    ∃ theo, calculateTheoreticalMinimums stocks cuts = some theo ∧
      ∃ r ∈ stocks.map fun s => s.price / s.length,
        (∀ x ∈ stocks.map fun s => s.price / s.length, r ≤ x) ∧
        theo.min_theoretical_cost = totalLengthNeeded cuts * r := by
  obtain ⟨s0, rest, rfl⟩ := List.exists_cons_of_ne_nil h
  have hme : ∃ me, minByFirst ((s0 :: rest).map fun s =>
      (s.price / s.length, s.length, s.price)) = some me := ⟨_, rfl⟩
  obtain ⟨me, hme⟩ := hme
  have hmax : ∃ m, ((s0 :: rest).map fun s => s.length).max? = some m := ⟨_, rfl⟩
  obtain ⟨maxLen, hmax⟩ := hmax
  have hcalc : calculateTheoreticalMinimums (s0 :: rest) cuts = some
      { total_length_needed := totalLengthNeeded cuts,
        min_theoretical_cost := totalLengthNeeded cuts * me.1,
        min_boards_by_length := (s0 :: rest).foldl (fun d s =>
          dictInsert d s.length (totalLengthNeeded cuts / s.length,
            totalLengthNeeded cuts / s.length * s.price)) [],
        min_theoretical_waste :=
          if 0 < (ffdLoop maxLen (allCutsSorted cuts) maxLen 0).1
          then (ffdLoop maxLen (allCutsSorted cuts) maxLen 0).2 +
            (ffdLoop maxLen (allCutsSorted cuts) maxLen 0).1
          else (ffdLoop maxLen (allCutsSorted cuts) maxLen 0).2,
        price_efficiency := me } := by
    simp only [calculateTheoreticalMinimums]
    rw [hme, hmax]
  obtain ⟨hmem, hall⟩ := minByFirst_spec hme
  refine ⟨_, hcalc, me.1, ?_, ?_, rfl⟩
  · obtain ⟨s, hs, hgs⟩ := List.mem_map.mp hmem
    exact List.mem_map.mpr ⟨s, hs, by rw [← hgs]⟩
  · intro x hx
    obtain ⟨s, hs, hxs⟩ := List.mem_map.mp hx
    have hgs := hall _ (List.mem_map.mpr ⟨s, hs, rfl⟩)
    rw [← hxs]
    exact hgs

/-- Witness for C8 at the concrete demo instance. -/
theorem min_theoretical_cost_formula_witness :
    ∃ theo, calculateTheoreticalMinimums demoStocks demoCuts = some theo ∧
      ∃ r ∈ demoStocks.map fun s => s.price / s.length,
        (∀ x ∈ demoStocks.map fun s => s.price / s.length, r ≤ x) ∧
        theo.min_theoretical_cost = totalLengthNeeded demoCuts * r :=
  min_theoretical_cost_formula demoStocks demoCuts (by simp [demoStocks])

/-- C9: optimize computes the reported waste gap as
`(totalWaste − minTheoreticalWaste) / minTheoreticalWaste · 100` when the
theoretical waste is strictly positive and as 0 when it is zero, so the
guarded division by zero is never performed. -/
theorem waste_gap_guarded (O : SolverOracle) (stocks : List StockOption)
    (cuts : List RequiredCut) (descs : List String) (res : OptResult)
    (h : optimize O stocks cuts descs = some res) :
    (0 < res.theoretical_minimums.min_theoretical_waste →
      res.waste_gap = (res.total_waste -
          res.theoretical_minimums.min_theoretical_waste) /
        res.theoretical_minimums.min_theoretical_waste * 100) ∧
    (res.theoretical_minimums.min_theoretical_waste = 0 → res.waste_gap = 0) := by
  obtain ⟨theo, tw, plan, -, -, -, -, hres⟩ := optimize_inversion h
  subst hres
  constructor
  · intro hpos
    show (if 0 < theo.min_theoretical_waste then
        (tw - theo.min_theoretical_waste) / theo.min_theoretical_waste * 100
      else 0) = (tw - theo.min_theoretical_waste) /
        theo.min_theoretical_waste * 100
    exact if_pos hpos
  · intro hz
    show (if 0 < theo.min_theoretical_waste then
        (tw - theo.min_theoretical_waste) / theo.min_theoretical_waste * 100
      else 0) = 0
    have hz2 : theo.min_theoretical_waste = 0 := hz
    rw [hz2]
    norm_num

/-- Witness for C9 at the concrete demo instance. -/
theorem waste_gap_guarded_witness :
    (0 < resDemo.theoretical_minimums.min_theoretical_waste →
      resDemo.waste_gap = (resDemo.total_waste -
          resDemo.theoretical_minimums.min_theoretical_waste) /
        resDemo.theoretical_minimums.min_theoretical_waste * 100) ∧
    (resDemo.theoretical_minimums.min_theoretical_waste = 0 →
      resDemo.waste_gap = 0) :=
  waste_gap_guarded demoOracle demoStocks demoCuts demoDescs resDemo demo_optimize

/-- C5 (code bug): input loading takes parts rows verbatim — a zero-quantity
row and a row with negative length and quantity are both kept, with no
rejection and no failure before the solver is called. -/
theorem input_rows_not_validated :
    loadRequiredCuts [⟨48, 0, "A"⟩, ⟨-5, -2, "B"⟩] =
      [{ length := 48, quantity := 0 }, { length := -5, quantity := -2 }] := rfl

/-- C2 (code bug): on an instance whose single required cut (200 in) is longer
than every stock option (96 in), the engine raises no Infeasible error:
seeding silently produces no pattern covering the cut, and optimize proceeds
to the solver and returns a result (with the demand constraint unsatisfiable). -/
theorem infeasible_not_detected :
    generateInitialPatterns [⟨96, 10⟩] [⟨200, 1⟩] = ([], []) ∧
    (optimize trivialOracle [⟨96, 10⟩] [⟨200, 1⟩] ["A"]).isSome = true := by
  constructor
  · norm_num [generateInitialPatterns, seedOne, pairApp, List.enum,
      List.enumFrom]
  · norm_num [optimize, finalState, finalUsage, finalIters, cgLoop, cgStep,
      solveSubproblem, solveKnapsack, generateInitialPatterns, seedOne,
      unitPattern, pairApp, calculateTheoreticalMinimums, minByFirst,
      dictInsert, ffdLoop, sortDesc, allCutsSorted, totalLengthNeeded,
      calculateWaste, formatSolution, buildCutDetails, stockLengthFor,
      matchingLengths, usedLength, pyRound, dotQ, eps, trivialOracle,
      List.range_succ, List.insertionSort, List.orderedInsert, List.enum,
      List.enumFrom, List.foldlM_cons, List.foldlM_nil, List.max?]

/-- C7 (code bug): on zero total demand the minimum theoretical cost is 0, and
optimize crashes (ZeroDivisionError in the unguarded cost-gap division,
modelled `none`) for every solver behavior, instead of returning an empty
plan with zero cost, zero waste and status optimal. -/
theorem zero_demand_crashes (O : SolverOracle) :
    optimize O [⟨96, 10⟩] [⟨48, 0⟩] ["A"] = none := by
  have hth : calculateTheoreticalMinimums [⟨96, 10⟩] [⟨48, 0⟩] = some
      { total_length_needed := 0, min_theoretical_cost := 0,
        min_boards_by_length := [(96, 0, 0)], min_theoretical_waste := 96,
        price_efficiency := (5 / 48, 96, 10) } := by
    norm_num [calculateTheoreticalMinimums, minByFirst, dictInsert, ffdLoop,
      sortDesc, allCutsSorted, totalLengthNeeded, List.insertionSort,
      List.orderedInsert, List.max?]
  unfold optimize
  rw [hth]
  split
  · rfl
  next x1 theo htheo =>
    split
    · rfl
    next x2 tw htw =>
      split
      · rfl
      next x3 plan hplan =>
        have h0 : theo.min_theoretical_cost = 0 := by
          rw [← Option.some.inj htheo]
        rw [if_pos h0]
